import Mathlib

/-!
Verification of the AST-visualizer backend (`backend/parser.py`).

The development shallowly embeds the three components of the file:

* `ASTConverter` — `convert_node` walks a native parse tree and produces a
  JSON-serializable tree with pre-order ids (`Conv`), and
  `parse_and_convert` wraps it with the native parser and error handling;
* `TreeFlattener.flatten_tree` — a FIFO-queue breadth-first linearization
  into flat node and link lists, plus a recursive `build_hierarchy` view;
* `parse_code` — the orchestration entry point.

Python dictionaries are embedded as fixed-shape Lean structures or
inductives whose constructors carry exactly the keys the source writes;
Python runtime values in AST field position are embedded as the inductive
`Raw`, whose constructors mirror the `isinstance` classification used by
the source (`ast.AST`, scalar, `list`, anything else).  The native parser
(`ast.parse`) is out of scope per the specification and is modelled as an
oracle `String → ParseOutcome`.
-/

/-- Scalar Python values, exactly the types accepted by the converter's
`isinstance(value, (str, int, float, bool, type(None)))` check
(parser.py line 27).  Floats are carried opaquely by their repr. -/
inductive PyVal where
  | vStr (s : String)
  | vInt (n : Int)
  | vFloat (r : String)
  | vBool (b : Bool)
  | vNone
deriving DecidableEq, Repr

/-- Runtime Python value appearing in an AST field position, classified the
way `convert_node` and `_get_node_attributes` classify values:
an `ast.AST` node (type tag plus ordered `iter_fields` list), a scalar,
a `list` (whose items may or may not be AST nodes, e.g. `Global.names`
holds strings), or anything else (bytes, complex, ...). -/
inductive Raw where
  | node (name : String) (fields : List (String × Raw))
  | scalar (v : PyVal)
  | list (items : List Raw)
  | other

mutual

/-- Size measure on `Raw` used for inductions. -/
def Raw.size : Raw → Nat
  | .node _ fs => 1 + Raw.sizeFields fs
  | .list items => 1 + Raw.sizeList items
  | .scalar _ => 1
  | .other => 1

/-- Size of an `iter_fields` list. -/
def Raw.sizeFields : List (String × Raw) → Nat
  | [] => 0
  | f :: rest => f.2.size + Raw.sizeFields rest

/-- Size of a list-field's item list. -/
def Raw.sizeList : List Raw → Nat
  | [] => 0
  | r :: rest => r.size + Raw.sizeList rest

end

/-- Output of `convert_node` (parser.py lines 34-83): either the node
dictionary `{id, name, attributes, children}` (with children entries
`{field, node}`), or the degenerate `{type: "value", value: v}` dictionary
returned for a bare primitive (line 50). -/
inductive Conv where
  | node (id : Nat) (name : String) (attrs : List (String × PyVal))
      (children : List (String × Conv))
  | value (v : PyVal)

mutual

/-- Size measure on `Conv` used for inductions and termination. -/
def Conv.size : Conv → Nat
  | .node _ _ _ cs => 1 + Conv.sizeChildren cs
  | .value _ => 1

/-- Size of a converted node's children list. -/
def Conv.sizeChildren : List (String × Conv) → Nat
  | [] => 0
  | c :: rest => c.2.size + Conv.sizeChildren rest

end

/-- Embedding of `ASTConverter._get_node_attributes` (parser.py lines
23-32): keep exactly the fields whose value is a scalar
(`str/int/float/bool/None`); list fields are skipped, and any other value
(a nested AST node, bytes, ...) falls through both `isinstance` checks and
is dropped. -/
def get_node_attributes (fields : List (String × Raw)) : List (String × PyVal) :=
  fields.filterMap fun fv =>
    match fv.2 with
    | .scalar v => some (fv.1, v)
    | _ => none

mutual

/-- Embedding of `ASTConverter.convert_node` (parser.py lines 34-83).
The second argument and result thread `self.node_id_counter`:
`_get_node_id` (lines 17-21) returns the current counter and increments it.

Case analysis mirrors the source: Python `None` (embedded as
`.scalar .vNone`) returns `None` (line 45); a non-AST primitive returns the
`{type: "value", value: node}` dictionary (lines 49-50); any other non-AST
value returns `None` (line 51); an AST node takes the next id, extracts
scalar attributes, and recursively converts child-bearing fields
(lines 53-83). -/
def convert_node : Raw → Nat → Option Conv × Nat
  | .scalar .vNone, ctr => (none, ctr)
  | .scalar v, ctr => (some (.value v), ctr)
  | .list _, ctr => (none, ctr)
  | .other, ctr => (none, ctr)
  | .node name fields, ctr =>
      let nid := ctr
      let (cs, ctr') := convert_fields fields (ctr + 1)
      (some (.node nid name (get_node_attributes fields) cs), ctr')

/-- The child-collecting loop of `convert_node` (parser.py lines 61-81):
iterate `iter_fields` in order; for a `list` value convert each AST item
in sequence order; for a single AST value convert it; append each truthy
result as `{field, node}`.  (`if child:` is true exactly when
`convert_node` returned a dictionary, i.e. `some`: both dictionary shapes
it can return are non-empty and hence truthy.) -/
def convert_fields : List (String × Raw) → Nat → List (String × Conv) × Nat
  | [], ctr => ([], ctr)
  | (f, v) :: rest, ctr =>
      match v with
      | .list items =>
          let (cs, ctr1) := convert_list_items f items ctr
          let (restCs, ctr2) := convert_fields rest ctr1
          (cs ++ restCs, ctr2)
      | .node nm fs =>
          let (c, ctr1) := convert_node (.node nm fs) ctr
          let (restCs, ctr2) := convert_fields rest ctr1
          ((match c with
            | some cv => (f, cv) :: restCs
            | none => restCs), ctr2)
      | _ => convert_fields rest ctr

/-- The inner loop over a list field's items (parser.py lines 63-72):
only items satisfying `isinstance(item, ast.AST)` are converted; every
item of the list shares the same field name. -/
def convert_list_items (f : String) : List Raw → Nat → List (String × Conv) × Nat
  | [], ctr => ([], ctr)
  | item :: rest, ctr =>
      match item with
      | .node nm fs =>
          let (c, ctr1) := convert_node (.node nm fs) ctr
          let (restCs, ctr2) := convert_list_items f rest ctr1
          ((match c with
            | some cv => (f, cv) :: restCs
            | none => restCs), ctr2)
      | _ => convert_list_items f rest ctr

end

/-- Embedding of the FlatNode dictionary `{id, name, attributes,
type: "node"}` appended at parser.py lines 151-156 (the constant
`"type"` key is omitted as it carries no information). -/
structure FlatNode where
  id : Nat
  name : String
  attributes : List (String × PyVal)
deriving DecidableEq, Repr

/-- Embedding of the Link dictionary `{source, target, field}` appended at
parser.py lines 159-163. -/
structure Link where
  source : Nat
  target : Nat
  field : String
deriving DecidableEq, Repr

/-- Value of `node.get("field", "")` at parser.py line 162.  The `node`
there is a dictionary produced by `convert_node` (the queue holds the
seed tree and `child["node"]` values, line 167), and such dictionaries
only ever have the keys `id/name/attributes/children` or `type/value` —
never `"field"` — so the lookup always falls back to the default `""`. -/
def Conv.link_field_lookup (_ : Conv) : String := ""

/-- Total size of the trees held in a flattener work queue; the
termination measure of the `while node_queue:` loop. -/
def qsize (q : List (Conv × Option Nat)) : Nat :=
  (q.map fun e => e.1.size).sum

theorem qsize_cons (e : Conv × Option Nat) (q : List (Conv × Option Nat)) :
    qsize (e :: q) = e.1.size + qsize q := by
  simp [qsize]

theorem qsize_append (a b : List (Conv × Option Nat)) :
    qsize (a ++ b) = qsize a + qsize b := by
  simp [qsize]

theorem qsize_children_map (cs : List (String × Conv)) (i : Nat) :
    qsize (cs.map fun c => (c.2, some i)) = Conv.sizeChildren cs := by
  induction cs with
  | nil => rfl
  | cons c rest ih => simp [qsize, Conv.sizeChildren, List.map_cons] at *; omega

theorem Conv.size_pos (t : Conv) : 0 < t.size := by
  cases t <;> simp [Conv.size]

/-- Embedding of the `while node_queue:` loop of
`TreeFlattener.flatten_tree` (parser.py lines 140-167), parameterized by
the queue contents (pairs `(node, parent_id)`).  A dequeued entry that is
not a dictionary with an `"id"` key — i.e. a `{type: "value"}` leaf — is
skipped (line 147); otherwise its FlatNode is appended, a Link is appended
when `parent_id is not None` (with `field` looked up on the node
dictionary, see `Conv.link_field_lookup`), and all `{field, node}`
children entries are enqueued carrying this node's id (children entries
produced by the converter are always dictionaries with a `"node"` key, so
the `isinstance`/membership guard at line 166 always passes).
`node.get("name", "Unknown")` and `node.get("attributes", {})` never fall
back to their defaults, because every node dictionary carries both keys. -/
def bfs : List (Conv × Option Nat) → List FlatNode × List Link
  | [] => ([], [])
  | (.value _, _) :: rest => bfs rest
  | (.node i n a cs, pid) :: rest =>
      let r := bfs (rest ++ cs.map fun c => (c.2, some i))
      (⟨i, n, a⟩ :: r.1,
       match pid with
       | some p => ⟨p, i, Conv.link_field_lookup (.node i n a cs)⟩ :: r.2
       | none => r.2)
termination_by q => qsize q
decreasing_by
  all_goals simp [qsize_cons, qsize_append, Conv.size, qsize_children_map]
  all_goals omega

/-- Embedding of the hierarchy-node dictionary built by `build_hierarchy`
(parser.py lines 170-185): `id` and `name` come from `.get` lookups and so
may be absent (`None` is not distinguished from absence by the consumer;
both are `none` here — on a converted node both keys are always present),
`children` is a key that may be removed (line 184), and `field` is a key
only ever added on child entries (line 181). -/
inductive HNode where
  | mk (id : Option Nat) (name : Option String) (attributes : List (String × PyVal))
      (children : Option (List HNode)) (field : Option String)

def HNode.id : HNode → Option Nat
  | .mk i _ _ _ _ => i

def HNode.name : HNode → Option String
  | .mk _ n _ _ _ => n

def HNode.attributes : HNode → List (String × PyVal)
  | .mk _ _ a _ _ => a

def HNode.children : HNode → Option (List HNode)
  | .mk _ _ _ c _ => c

def HNode.field : HNode → Option String
  | .mk _ _ _ _ f => f

/-- Embedding of `child_node["field"] = child.get("field", "")`
(parser.py line 181): children entries always carry their field string. -/
def HNode.set_field : HNode → String → HNode
  | .mk i n a c _, f => .mk i n a c (some f)

mutual

/-- Embedding of the nested helper `build_hierarchy` (parser.py lines
170-185).  On a node dictionary: copy `id`, `name`, `attributes`, build
the children list by recursion (adding each child's connecting `field`),
and remove the `children` key entirely when that list is empty (lines
183-184).  On a `{type: "value"}` leaf the `.get` lookups for `id` and
`name` miss (yielding `None`), `attributes` defaults to `{}` and
`children` to `[]`, which is then popped. -/
def build_hierarchy : Conv → HNode
  | .value _ => .mk none none [] none none
  | .node i n a cs =>
      let hs := hierarchy_children cs
      .mk (some i) (some n) a (if hs.isEmpty then none else some hs) none

/-- The `for child in node.get("children", [])` loop of `build_hierarchy`
(parser.py lines 177-182): every `{field, node}` entry passes the guard at
line 178, is recursively converted, gets its `field` inserted, and is
appended in order. -/
def hierarchy_children : List (String × Conv) → List HNode
  | [] => []
  | c :: rest => (build_hierarchy c.2).set_field c.1 :: hierarchy_children rest

end

/-- Embedding of the dictionary returned by `TreeFlattener.flatten_tree`
(parser.py lines 189-193). -/
structure FlatOut where
  nodes : List FlatNode
  links : List Link
  hierarchy : HNode

/-- Embedding of `TreeFlattener.flatten_tree` (parser.py lines 126-193) on
a tree dictionary.  The `if not tree_dict: return {}` guard (line 137) and
the `if tree_dict else None` conditional (line 187) are unreachable for an
actual dictionary argument — both dictionary shapes of `Conv` are
non-empty and hence truthy — so the embedding is the truthy branch:
seed the queue with `(tree_dict, None)`, run the loop, and build the
hierarchy view. -/
def flatten_tree (tree_dict : Conv) : FlatOut :=
  let r := bfs [(tree_dict, none)]
  { nodes := r.1, links := r.2, hierarchy := build_hierarchy tree_dict }

/-- Embedding of Python `code.split("\n")` (parser.py lines 105, 112,
119) over the string's character list: split at every newline, keeping
empty segments, so the result always has one more segment than there are
newline characters (`"".split("\n") == [""]`).  The `[]` fallback in the
second branch is unreachable: the function never returns an empty list. -/
def py_split_nl : List Char → List (List Char)
  | [] => [[]]
  | c :: rest =>
      let r := py_split_nl rest
      if c = '\n' then [] :: r
      else
        match r with
        | seg :: segs => (c :: seg) :: segs
        | [] => [[c]]

/-- Outcome of the native parser `ast.parse`, which the specification
treats as a black box: a structured tree (an AST node: type tag plus
fields), or a `SyntaxError` carrying a line number and message, or any
other exception carrying its string description. -/
inductive ParseOutcome where
  | ok (name : String) (fields : List (String × Raw))
  | syntaxError (lineno : Nat) (msg : String)
  | exc (msg : String)

/-- Embedding of the dictionary returned by
`ASTConverter.parse_and_convert` (parser.py lines 101-120);
it has exactly the keys `success/tree/error/lines`. -/
structure ConvertResult where
  success : Bool
  tree : Option Conv
  error : Option String
  lines : Nat


/-- Embedding of `ASTConverter.parse_and_convert` (parser.py lines
85-120), parameterized by the native-parser oracle.  `node_id_counter` is
the converter's counter state at entry; line 95 overwrites it with `0`
before parsing, so the entry value is discarded.  The result pairs the
returned dictionary with the counter state at exit.  `lines` is
`len(code.split("\n"))` in every branch; the error branches render
f-strings over the exception's data. -/
def ASTConverter.parse_and_convert (node_id_counter : Nat)
    (parse : String → ParseOutcome) (code : String) : ConvertResult × Nat :=
  let _ := node_id_counter
  -- line 95: self.node_id_counter = 0
  match parse code with
  | .ok nm fs =>
      let (root, ctr') := convert_node (.node nm fs) 0
      ({ success := true, tree := root, error := none,
         lines := (py_split_nl code.toList).length }, ctr')
  | .syntaxError lineno msg =>
      ({ success := false, tree := none,
         error := some ("Syntax Error at line " ++ toString lineno ++ ": " ++ msg),
         lines := (py_split_nl code.toList).length }, 0)
  | .exc msg =>
      ({ success := false, tree := none,
         error := some ("Parse Error: " ++ msg),
         lines := (py_split_nl code.toList).length }, 0)

/-- Embedding of the result of `parse_code`: the `parse_and_convert`
dictionary with the `flattened` key added (parser.py lines 211 and 213). -/
structure ParseResult where
  success : Bool
  tree : Option Conv
  error : Option String
  lines : Nat
  flattened : Option FlatOut

/-- Embedding of the entry point `parse_code` (parser.py lines 196-215):
construct a fresh `ASTConverter` (counter `0`), run `parse_and_convert`,
and attach `flattened` — the flattener's output when
`result["success"] and result["tree"]` is truthy, `None` otherwise.
(`result["tree"]`, when not `None`, is a non-empty dictionary and hence
truthy.) -/
def parse_code (parse : String → ParseOutcome) (code : String) : ParseResult :=
  let (result, _) := ASTConverter.parse_and_convert 0 parse code
  let flattened :=
    match result.success, result.tree with
    | true, some t => some (flatten_tree t)
    | _, _ => none
  { success := result.success, tree := result.tree, error := result.error,
    lines := result.lines, flattened := flattened }

/-! ### Pre-order ids and node-shape predicates on converted trees -/

mutual

/-- Ids of a converted tree listed in pre-order (a node before its
children, children in list order); a `{type: "value"}` leaf carries no id. -/
def Conv.preIds : Conv → List Nat
  | .value _ => []
  | .node i _ _ cs => i :: Conv.preIdsChildren cs

/-- Pre-order ids of a children list, in order. -/
def Conv.preIdsChildren : List (String × Conv) → List Nat
  | [] => []
  | c :: rest => c.2.preIds ++ Conv.preIdsChildren rest

end

mutual

/-- Decides whether a converted tree is built from node dictionaries only:
the root is a node dictionary and, recursively, so is every `node` member
of every children entry — i.e. the `{type: "value"}` shape never occurs. -/
def Conv.nodeOnly : Conv → Bool
  | .value _ => false
  | .node _ _ _ cs => Conv.childrenNodeOnly cs

/-- Decides `Conv.nodeOnly` across all entries of a children list. -/
def Conv.childrenNodeOnly : List (String × Conv) → Bool
  | [] => true
  | c :: rest => c.2.nodeOnly && Conv.childrenNodeOnly rest

end

/-- Pre-order ids of an optional converter result (`None` carries no ids). -/
def optIds : Option Conv → List Nat
  | none => []
  | some t => t.preIds

/-- Everything the id-related claims need about `convert_node` at a given
input: the counter never decreases, the ids created are exactly the
consecutive block `range' ctr (ctr' - ctr)` listed in pre-order, and on an
AST-node input the result is the node dictionary with id `ctr`, the
extracted scalar attributes, and node-only children. -/
def ConvertNodeSpec (r : Raw) : Prop :=
  ∀ ctr : Nat,
    ctr ≤ (convert_node r ctr).2 ∧
    optIds (convert_node r ctr).1 =
      List.range' ctr ((convert_node r ctr).2 - ctr) ∧
    (∀ nm fs, r = Raw.node nm fs →
      ∃ cs, (convert_node r ctr).1 =
          some (Conv.node ctr nm (get_node_attributes fs) cs) ∧
        Conv.childrenNodeOnly cs = true)

/-- Specification of the field loop: counter monotone, ids of the produced
children entries are the consecutive block created, children node-only. -/
def ConvertFieldsSpec (fs : List (String × Raw)) : Prop :=
  ∀ ctr : Nat,
    ctr ≤ (convert_fields fs ctr).2 ∧
    Conv.preIdsChildren (convert_fields fs ctr).1 =
      List.range' ctr ((convert_fields fs ctr).2 - ctr) ∧
    Conv.childrenNodeOnly (convert_fields fs ctr).1 = true

/-- Specification of the list-item loop, as for `ConvertFieldsSpec`. -/
def ConvertItemsSpec (items : List Raw) : Prop :=
  ∀ (f : String) (ctr : Nat),
    ctr ≤ (convert_list_items f items ctr).2 ∧
    Conv.preIdsChildren (convert_list_items f items ctr).1 =
      List.range' ctr ((convert_list_items f items ctr).2 - ctr) ∧
    Conv.childrenNodeOnly (convert_list_items f items ctr).1 = true

theorem preIdsChildren_cons_node (f : String) (t : Conv)
    (rest : List (String × Conv)) :
    Conv.preIdsChildren ((f, t) :: rest) = t.preIds ++ Conv.preIdsChildren rest := by
  simp [Conv.preIdsChildren]

/-- Combined strong induction establishing the three converter
specifications for all inputs below a size bound. -/
theorem convert_master (N : Nat) :
    (∀ r : Raw, 2 * r.size ≤ N → ConvertNodeSpec r) ∧
    (∀ fs : List (String × Raw), 2 * Raw.sizeFields fs + 1 ≤ N → ConvertFieldsSpec fs) ∧
    (∀ items : List Raw, 2 * Raw.sizeList items + 1 ≤ N → ConvertItemsSpec items) := by
  induction N using Nat.strong_induction_on with
  | _ N ih =>
    refine ⟨?_, ?_, ?_⟩
    · intro r hr
      match r with
      | .scalar .vNone => intro ctr; simp [ConvertNodeSpec, convert_node, optIds]
      | .scalar (.vStr s) => intro ctr; simp [convert_node, optIds, Conv.preIds]
      | .scalar (.vInt n) => intro ctr; simp [convert_node, optIds, Conv.preIds]
      | .scalar (.vFloat x) => intro ctr; simp [convert_node, optIds, Conv.preIds]
      | .scalar (.vBool b) => intro ctr; simp [convert_node, optIds, Conv.preIds]
      | .list items => intro ctr; simp [convert_node, optIds]
      | .other => intro ctr; simp [convert_node, optIds]
      | .node nm fs =>
        intro ctr
        have hsz : 2 * Raw.sizeFields fs + 1 ≤ 2 * Raw.sizeFields fs + 1 := le_refl _
        have hlt : 2 * Raw.sizeFields fs + 1 < N := by
          have : 2 * Raw.size (.node nm fs) = 2 * (1 + Raw.sizeFields fs) := by
            simp [Raw.size]
          omega
        have hfs := ((ih _ hlt).2.1) fs (le_refl _)
        obtain ⟨h1, h2, h3⟩ := hfs (ctr + 1)
        have heq : convert_node (.node nm fs) ctr =
            (some (Conv.node ctr nm (get_node_attributes fs)
              (convert_fields fs (ctr + 1)).1), (convert_fields fs (ctr + 1)).2) := by
          simp [convert_node]
        refine ⟨?_, ?_, ?_⟩
        · rw [heq]; omega
        · rw [heq]
          simp only [optIds, Conv.preIds]
          rw [h2]
          have hn : (convert_fields fs (ctr + 1)).2 - ctr =
              ((convert_fields fs (ctr + 1)).2 - (ctr + 1)) + 1 := by omega
          rw [hn, List.range'_succ]
        · intro nm' fs' hnode
          cases hnode
          exact ⟨(convert_fields fs (ctr + 1)).1, by rw [heq], h3⟩
    · intro fs hfs
      match fs with
      | [] => intro ctr; simp [convert_fields, Conv.preIdsChildren, Conv.childrenNodeOnly]
      | (f, v) :: rest =>
        intro ctr
        match v with
        | .scalar sv =>
          have hlt : 2 * Raw.sizeFields rest + 1 < N := by
            have : Raw.sizeFields ((f, .scalar sv) :: rest) =
                Raw.size (.scalar sv) + Raw.sizeFields rest := by simp [Raw.sizeFields]
            simp [Raw.size] at this; omega
          have hr := ((ih _ hlt).2.1) rest (le_refl _) ctr
          have heq : convert_fields ((f, Raw.scalar sv) :: rest) ctr =
              convert_fields rest ctr := by
            simp [convert_fields]
          rw [heq]; exact hr
        | .other =>
          have hlt : 2 * Raw.sizeFields rest + 1 < N := by
            have : Raw.sizeFields ((f, Raw.other) :: rest) =
                Raw.size Raw.other + Raw.sizeFields rest := by simp [Raw.sizeFields]
            simp [Raw.size] at this; omega
          have hr := ((ih _ hlt).2.1) rest (le_refl _) ctr
          have heq : convert_fields ((f, Raw.other) :: rest) ctr =
              convert_fields rest ctr := by
            simp [convert_fields]
          rw [heq]; exact hr
        | .node nm nfs =>
          have hszc : Raw.sizeFields ((f, Raw.node nm nfs) :: rest) =
              Raw.size (Raw.node nm nfs) + Raw.sizeFields rest := by
            simp [Raw.sizeFields]
          have hlt1 : 2 * Raw.size (Raw.node nm nfs) < N := by
            have hp : 1 ≤ Raw.sizeFields rest + 1 := by omega
            omega
          have hlt2 : 2 * Raw.sizeFields rest + 1 < N := by
            have : 1 ≤ Raw.size (Raw.node nm nfs) := by simp [Raw.size]
            omega
          have hn := ((ih _ hlt1).1) (Raw.node nm nfs) (le_refl _) ctr
          obtain ⟨hn1, hn2, hn3⟩ := hn
          obtain ⟨cs0, hcs0, hcs0only⟩ := hn3 nm nfs rfl
          have hr := ((ih _ hlt2).2.1) rest (le_refl _) (convert_node (Raw.node nm nfs) ctr).2
          obtain ⟨hr1, hr2, hr3⟩ := hr
          have heq : convert_fields ((f, Raw.node nm nfs) :: rest) ctr =
              ((f, Conv.node ctr nm (get_node_attributes nfs) cs0) ::
                 (convert_fields rest (convert_node (Raw.node nm nfs) ctr).2).1,
               (convert_fields rest (convert_node (Raw.node nm nfs) ctr).2).2) := by
            simp only [convert_fields]
            rw [show (convert_node (Raw.node nm nfs) ctr) =
              ((convert_node (Raw.node nm nfs) ctr).1, (convert_node (Raw.node nm nfs) ctr).2) from rfl]
            rw [hcs0]
          rw [heq]
          refine ⟨by omega, ?_, ?_⟩
          · rw [preIdsChildren_cons_node, hr2]
            have hpre : (Conv.node ctr nm (get_node_attributes nfs) cs0).preIds =
                optIds (convert_node (Raw.node nm nfs) ctr).1 := by
              rw [hcs0]; rfl
            rw [hpre, hn2]
            have := List.range'_append_1 ctr ((convert_node (Raw.node nm nfs) ctr).2 - ctr)
              ((convert_fields rest (convert_node (Raw.node nm nfs) ctr).2).2 -
                (convert_node (Raw.node nm nfs) ctr).2)
            rw [show ctr + ((convert_node (Raw.node nm nfs) ctr).2 - ctr) =
              (convert_node (Raw.node nm nfs) ctr).2 from by omega] at this
            rw [this]
            congr 1
            omega
          · simp only [Conv.childrenNodeOnly, Conv.nodeOnly]
            rw [hcs0only, hr3]
            rfl
        | .list items =>
          have hszc : Raw.sizeFields ((f, Raw.list items) :: rest) =
              (1 + Raw.sizeList items) + Raw.sizeFields rest := by
            simp [Raw.sizeFields, Raw.size]
          have hlt1 : 2 * Raw.sizeList items + 1 < N := by omega
          have hlt2 : 2 * Raw.sizeFields rest + 1 < N := by omega
          have hi := ((ih _ hlt1).2.2) items (le_refl _) f ctr
          obtain ⟨hi1, hi2, hi3⟩ := hi
          have hr := ((ih _ hlt2).2.1) rest (le_refl _) (convert_list_items f items ctr).2
          obtain ⟨hr1, hr2, hr3⟩ := hr
          have heq : convert_fields ((f, Raw.list items) :: rest) ctr =
              ((convert_list_items f items ctr).1 ++
                 (convert_fields rest (convert_list_items f items ctr).2).1,
               (convert_fields rest (convert_list_items f items ctr).2).2) := by
            simp [convert_fields]
          rw [heq]
          refine ⟨by omega, ?_, ?_⟩
          · have hjoin : ∀ (a b : List (String × Conv)),
                Conv.preIdsChildren (a ++ b) =
                  Conv.preIdsChildren a ++ Conv.preIdsChildren b := by
              intro a b
              induction a with
              | nil => simp [Conv.preIdsChildren]
              | cons x xs ihx => simp [Conv.preIdsChildren, ihx]
            rw [hjoin, hi2, hr2]
            have := List.range'_append_1 ctr ((convert_list_items f items ctr).2 - ctr)
              ((convert_fields rest (convert_list_items f items ctr).2).2 -
                (convert_list_items f items ctr).2)
            rw [show ctr + ((convert_list_items f items ctr).2 - ctr) =
              (convert_list_items f items ctr).2 from by omega] at this
            rw [this]
            congr 1
            omega
          · have hjoin : ∀ (a b : List (String × Conv)),
                Conv.childrenNodeOnly (a ++ b) =
                  (Conv.childrenNodeOnly a && Conv.childrenNodeOnly b) := by
              intro a b
              induction a with
              | nil => simp [Conv.childrenNodeOnly]
              | cons x xs ihx => simp [Conv.childrenNodeOnly, ihx, Bool.and_assoc]
            rw [hjoin, hi3, hr3]
            rfl
    · intro items hitems
      match items with
      | [] => intro f ctr; simp [convert_list_items, Conv.preIdsChildren, Conv.childrenNodeOnly]
      | item :: rest =>
        intro f ctr
        match item with
        | .node nm nfs =>
          have hszc : Raw.sizeList (Raw.node nm nfs :: rest) =
              Raw.size (Raw.node nm nfs) + Raw.sizeList rest := by
            simp [Raw.sizeList]
          have hlt1 : 2 * Raw.size (Raw.node nm nfs) < N := by omega
          have hlt2 : 2 * Raw.sizeList rest + 1 < N := by
            have : 1 ≤ Raw.size (Raw.node nm nfs) := by simp [Raw.size]
            omega
          have hn := ((ih _ hlt1).1) (Raw.node nm nfs) (le_refl _) ctr
          obtain ⟨hn1, hn2, hn3⟩ := hn
          obtain ⟨cs0, hcs0, hcs0only⟩ := hn3 nm nfs rfl
          have hr := ((ih _ hlt2).2.2) rest (le_refl _) f (convert_node (Raw.node nm nfs) ctr).2
          obtain ⟨hr1, hr2, hr3⟩ := hr
          have heq : convert_list_items f (Raw.node nm nfs :: rest) ctr =
              ((f, Conv.node ctr nm (get_node_attributes nfs) cs0) ::
                 (convert_list_items f rest (convert_node (Raw.node nm nfs) ctr).2).1,
               (convert_list_items f rest (convert_node (Raw.node nm nfs) ctr).2).2) := by
            simp only [convert_list_items]
            rw [show (convert_node (Raw.node nm nfs) ctr) =
              ((convert_node (Raw.node nm nfs) ctr).1, (convert_node (Raw.node nm nfs) ctr).2) from rfl]
            rw [hcs0]
          rw [heq]
          refine ⟨by omega, ?_, ?_⟩
          · rw [preIdsChildren_cons_node, hr2]
            have hpre : (Conv.node ctr nm (get_node_attributes nfs) cs0).preIds =
                optIds (convert_node (Raw.node nm nfs) ctr).1 := by
              rw [hcs0]; rfl
            rw [hpre, hn2]
            have := List.range'_append_1 ctr ((convert_node (Raw.node nm nfs) ctr).2 - ctr)
              ((convert_list_items f rest (convert_node (Raw.node nm nfs) ctr).2).2 -
                (convert_node (Raw.node nm nfs) ctr).2)
            rw [show ctr + ((convert_node (Raw.node nm nfs) ctr).2 - ctr) =
              (convert_node (Raw.node nm nfs) ctr).2 from by omega] at this
            rw [this]
            congr 1
            omega
          · simp only [Conv.childrenNodeOnly, Conv.nodeOnly]
            rw [hcs0only, hr3]
            rfl
        | .scalar sv =>
          have hlt : 2 * Raw.sizeList rest + 1 < N := by
            have : Raw.sizeList (Raw.scalar sv :: rest) =
                Raw.size (Raw.scalar sv) + Raw.sizeList rest := by simp [Raw.sizeList]
            simp [Raw.size] at this; omega
          have hr := ((ih _ hlt).2.2) rest (le_refl _) f ctr
          have heq : convert_list_items f (Raw.scalar sv :: rest) ctr =
              convert_list_items f rest ctr := by
            simp [convert_list_items]
          rw [heq]; exact hr
        | .list its =>
          have hlt : 2 * Raw.sizeList rest + 1 < N := by
            have : Raw.sizeList (Raw.list its :: rest) =
                Raw.size (Raw.list its) + Raw.sizeList rest := by simp [Raw.sizeList]
            simp [Raw.size] at this; omega
          have hr := ((ih _ hlt).2.2) rest (le_refl _) f ctr
          have heq : convert_list_items f (Raw.list its :: rest) ctr =
              convert_list_items f rest ctr := by
            simp [convert_list_items]
          rw [heq]; exact hr
        | .other =>
          have hlt : 2 * Raw.sizeList rest + 1 < N := by
            have : Raw.sizeList (Raw.other :: rest) =
                Raw.size Raw.other + Raw.sizeList rest := by simp [Raw.sizeList]
            simp [Raw.size] at this; omega
          have hr := ((ih _ hlt).2.2) rest (le_refl _) f ctr
          have heq : convert_list_items f (Raw.other :: rest) ctr =
              convert_list_items f rest ctr := by
            simp [convert_list_items]
          rw [heq]; exact hr

/-! ### Breadth-first structure of the flattener loop -/

theorem bfs_nil : bfs [] = ([], []) := by
  simp [bfs]

theorem bfs_cons_value (v : PyVal) (p : Option Nat) (rest : List (Conv × Option Nat)) :
    bfs ((Conv.value v, p) :: rest) = bfs rest := by
  simp [bfs]

theorem bfs_cons_node (i : Nat) (n : String) (a : List (String × PyVal))
    (cs : List (String × Conv)) (pid : Option Nat) (rest : List (Conv × Option Nat)) :
    bfs ((Conv.node i n a cs, pid) :: rest) =
      ((⟨i, n, a⟩ : FlatNode) :: (bfs (rest ++ cs.map fun c => (c.2, some i))).1,
       (match pid with
        | some p => (⟨p, i, Conv.link_field_lookup (Conv.node i n a cs)⟩ : Link) ::
            (bfs (rest ++ cs.map fun c => (c.2, some i))).2
        | none => (bfs (rest ++ cs.map fun c => (c.2, some i))).2)) := by
  rw [bfs.eq_def]

/-- FlatNode and Link output contributed by a single dequeued entry. -/
def entry_out : Conv × Option Nat → List FlatNode × List Link
  | (.value _, _) => ([], [])
  | (.node i n a cs, pid) =>
      ([⟨i, n, a⟩],
       match pid with
       | some p => [⟨p, i, Conv.link_field_lookup (.node i n a cs)⟩]
       | none => [])

/-- Queue entries that a single dequeued entry enqueues. -/
def entry_children : Conv × Option Nat → List (Conv × Option Nat)
  | (.value _, _) => []
  | (.node i _ _ cs, _) => cs.map fun c => (c.2, some i)

/-- Output of one breadth-first round over a whole queue. -/
def pout (q : List (Conv × Option Nat)) : List FlatNode × List Link :=
  ((q.map fun e => (entry_out e).1).flatten, (q.map fun e => (entry_out e).2).flatten)

/-- All entries enqueued by one breadth-first round over a whole queue:
the next level of the traversal. -/
def queue_children (q : List (Conv × Option Nat)) : List (Conv × Option Nat) :=
  (q.map entry_children).flatten

theorem queue_children_cons (e : Conv × Option Nat) (q : List (Conv × Option Nat)) :
    queue_children (e :: q) = entry_children e ++ queue_children q := by
  simp [queue_children]

theorem qsize_queue_children (q : List (Conv × Option Nat)) :
    qsize (queue_children q) + q.length = qsize q := by
  induction q with
  | nil => simp [queue_children, qsize]
  | cons e rest ih =>
    rw [queue_children_cons, qsize_append, qsize_cons]
    match e with
    | (.value v, p) => simp [entry_children, qsize, Conv.size] at *; omega
    | (.node i n a cs, p) =>
      have h1 : qsize (entry_children (Conv.node i n a cs, p)) = Conv.sizeChildren cs := by
        simp [entry_children, qsize_children_map]
      rw [h1]
      simp [Conv.size, List.length_cons] at *
      omega

/-- Processing a queue `A ++ B` first drains `A`, emitting its round
output, with `A`'s children moved behind `B`: the FIFO exchange law for
the flattener loop. -/
theorem bfs_append (A B : List (Conv × Option Nat)) :
    bfs (A ++ B) =
      ((pout A).1 ++ (bfs (B ++ queue_children A)).1,
       (pout A).2 ++ (bfs (B ++ queue_children A)).2) := by
  induction A generalizing B with
  | nil => simp [pout, queue_children]
  | cons e A ih =>
    match e with
    | (.value v, p) =>
      rw [List.cons_append, bfs_cons_value, ih]
      simp [pout, queue_children, entry_out, entry_children]
    | (.node i n a cs, pid) =>
      rw [List.cons_append, bfs_cons_node]
      rw [List.append_assoc]
      rw [ih (B ++ cs.map fun c => (c.2, some i))]
      have hq : (B ++ (cs.map fun c => (c.2, some i))) ++ queue_children A =
          B ++ queue_children ((Conv.node i n a cs, pid) :: A) := by
        rw [queue_children_cons]
        simp [entry_children]
      rw [hq]
      match pid with
      | some p =>
        simp only [pout, List.map_cons, List.flatten_cons, entry_out]
        simp
      | none =>
        simp only [pout, List.map_cons, List.flatten_cons, entry_out]
        simp

/-- One full breadth-first round: the loop emits the round output of the
current queue and continues on the queue of all children. -/
theorem bfs_round (q : List (Conv × Option Nat)) :
    bfs q = ((pout q).1 ++ (bfs (queue_children q)).1,
             (pout q).2 ++ (bfs (queue_children q)).2) := by
  have := bfs_append q []
  simpa using this

/-- Level decomposition of the flattener loop: round outputs level by
level, starting from the given queue. -/
def bfs_rounds (q : List (Conv × Option Nat)) : List (List FlatNode × List Link) :=
  match q with
  | [] => []
  | e :: rest => pout (e :: rest) :: bfs_rounds (queue_children (e :: rest))
termination_by qsize q
decreasing_by
  have := qsize_queue_children (e :: rest)
  simp at this ⊢
  omega

/-- The flattener loop's output is exactly the concatenation of its
level-by-level round outputs. -/
theorem bfs_eq_rounds (q : List (Conv × Option Nat)) :
    bfs q = (((bfs_rounds q).map Prod.fst).flatten,
             ((bfs_rounds q).map Prod.snd).flatten) := by
  generalize hN : qsize q = N
  induction N using Nat.strong_induction_on generalizing q with
  | _ N ih =>
    match q with
    | [] => simp [bfs_nil, bfs_rounds]
    | e :: rest =>
      have hlt : qsize (queue_children (e :: rest)) < N := by
        have := qsize_queue_children (e :: rest)
        simp at this
        omega
      have hrec := ih _ hlt (queue_children (e :: rest)) rfl
      rw [bfs_round (e :: rest), hrec]
      rw [bfs_rounds]
      simp

/-- On a queue all of whose entries carry a parent id, every emitted
FlatNode is emitted together with exactly one Link targeting its id, in
the same position: the link target list equals the node id list. -/
theorem bfs_targets (q : List (Conv × Option Nat))
    (hq : ∀ e ∈ q, e.2.isSome = true) :
    (bfs q).2.map Link.target = (bfs q).1.map FlatNode.id := by
  generalize hN : qsize q = N
  induction N using Nat.strong_induction_on generalizing q with
  | _ N ih =>
    match q with
    | [] => simp [bfs_nil]
    | (Conv.value v, p) :: rest =>
      have hlt : qsize rest < N := by
        rw [← hN, qsize_cons]
        have := Conv.size_pos (Conv.value v)
        simp at *
        omega
      rw [bfs_cons_value]
      exact ih _ hlt rest (fun e he => hq e (List.mem_cons_of_mem _ he)) rfl
    | (Conv.node i n a cs, pid) :: rest =>
      obtain ⟨p, rfl⟩ := Option.isSome_iff_exists.mp (hq _ (List.mem_cons_self _ _))
      rw [bfs_cons_node]
      have hlt : qsize (rest ++ cs.map fun c => (c.2, some i)) < N := by
        rw [← hN, qsize_cons, qsize_append, qsize_children_map]
        simp [Conv.size]
        omega
      have hmem : ∀ e ∈ rest ++ cs.map fun c => (c.2, some i), e.2.isSome = true := by
        intro e he
        rcases List.mem_append.mp he with h | h
        · exact hq e (List.mem_cons_of_mem _ h)
        · obtain ⟨c, _, rfl⟩ := List.mem_map.mp h
          rfl
      have := ih _ hlt _ hmem rfl
      simp [this]

theorem preIdsChildren_eq_flatten (i : Nat) (cs : List (String × Conv)) :
    ((cs.map fun c => (c.2, some i)).map fun e => e.1.preIds).flatten =
      Conv.preIdsChildren cs := by
  induction cs with
  | nil => simp [Conv.preIdsChildren]
  | cons c rest ih =>
    simp only [List.map_cons, List.flatten_cons, Conv.preIdsChildren]
    rw [ih]

/-- The ids emitted by the flattener loop are a permutation of the
pre-order ids of the trees sitting in the queue. -/
theorem bfs_ids_perm (q : List (Conv × Option Nat)) :
    ((bfs q).1.map FlatNode.id).Perm (q.map fun e => e.1.preIds).flatten := by
  generalize hN : qsize q = N
  induction N using Nat.strong_induction_on generalizing q with
  | _ N ih =>
    match q with
    | [] => simp [bfs_nil]
    | (Conv.value v, p) :: rest =>
      have hlt : qsize rest < N := by
        rw [← hN, qsize_cons]
        have := Conv.size_pos (Conv.value v)
        simp at *
        omega
      rw [bfs_cons_value]
      simpa [Conv.preIds] using ih _ hlt rest rfl
    | (Conv.node i n a cs, pid) :: rest =>
      have hlt : qsize (rest ++ cs.map fun c => (c.2, some i)) < N := by
        rw [← hN, qsize_cons, qsize_append, qsize_children_map]
        simp [Conv.size]
        omega
      have hrec := ih _ hlt (rest ++ cs.map fun c => (c.2, some i)) rfl
      rw [bfs_cons_node]
      simp only [List.map_cons, List.flatten_cons, Conv.preIds]
      have hsplit : ((rest ++ cs.map fun c => (c.2, some i)).map fun e => e.1.preIds).flatten =
          (rest.map fun e => e.1.preIds).flatten ++
            Conv.preIdsChildren cs := by
        rw [List.map_append, List.flatten_append, preIdsChildren_eq_flatten]
      rw [hsplit] at hrec
      refine List.Perm.trans (List.Perm.cons i hrec) ?_
      refine List.Perm.cons i ?_
      exact List.perm_append_comm

/-! ### Shape of the hierarchy view -/

mutual

/-- Decides, over a converted tree and a hierarchy node built for it, the
hierarchy-shape contract: the `children` key is present exactly when the
converted node has a non-empty children list (removed entirely otherwise),
the hierarchy children correspond one-to-one and in order to the converted
children entries, and each hierarchy child carries `field = some f` where
`f` is the field name attached to the corresponding children entry. -/
def hier_ok : Conv → HNode → Bool
  | .value _, _ => true
  | .node _ _ _ cs, h =>
      match cs, h.children with
      | [], none => true
      | [], some _ => false
      | _ :: _, none => false
      | c :: crest, some l => hier_ok_children (c :: crest) l

/-- Decides `hier_ok` pointwise between a children list and the hierarchy
nodes built for it, checking each hierarchy child's `field` key. -/
def hier_ok_children : List (String × Conv) → List HNode → Bool
  | [], [] => true
  | [], _ :: _ => false
  | _ :: _, [] => false
  | c :: crest, h :: hrest =>
      (h.field == some c.1) && hier_ok c.2 h && hier_ok_children crest hrest

end

theorem hier_ok_set_field (t : Conv) (h : HNode) (f : String) :
    hier_ok t (h.set_field f) = hier_ok t h := by
  cases t <;> cases h <;> rfl

theorem build_hierarchy_value (v : PyVal) :
    build_hierarchy (Conv.value v) = .mk none none [] none none := by
  rw [build_hierarchy.eq_def]

theorem build_hierarchy_node (i : Nat) (n : String) (a : List (String × PyVal))
    (cs : List (String × Conv)) :
    build_hierarchy (Conv.node i n a cs) =
      .mk (some i) (some n) a
        (if (hierarchy_children cs).isEmpty then none else some (hierarchy_children cs))
        none := by
  rw [build_hierarchy.eq_def]

theorem hierarchy_children_nil : hierarchy_children [] = [] := by
  rw [hierarchy_children.eq_def]

theorem hierarchy_children_cons (c : String × Conv) (rest : List (String × Conv)) :
    hierarchy_children (c :: rest) =
      (build_hierarchy c.2).set_field c.1 :: hierarchy_children rest := by
  rw [hierarchy_children.eq_def]

theorem hierarchy_children_length (cs : List (String × Conv)) :
    (hierarchy_children cs).length = cs.length := by
  induction cs with
  | nil => simp [hierarchy_children_nil]
  | cons c rest ih => simp [hierarchy_children_cons, ih]

/-- The hierarchy built for any converted tree satisfies the
hierarchy-shape contract, and so does the children list built for any
children list. -/
theorem build_hierarchy_ok (N : Nat) :
    (∀ t : Conv, 2 * t.size ≤ N → hier_ok t (build_hierarchy t) = true) ∧
    (∀ cs : List (String × Conv), 2 * Conv.sizeChildren cs + 1 ≤ N →
      hier_ok_children cs (hierarchy_children cs) = true) := by
  induction N using Nat.strong_induction_on with
  | _ N ih =>
    constructor
    · intro t ht
      match t with
      | .value v => rfl
      | .node i n a cs =>
        rw [build_hierarchy_node]
        match cs, ht with
        | [], _ =>
          simp [hierarchy_children_nil, hier_ok, HNode.children]
        | c :: crest, ht =>
          have hne : (hierarchy_children (c :: crest)).isEmpty = false := by
            rw [hierarchy_children_cons]
            rfl
          rw [hne]
          have hlt : 2 * Conv.sizeChildren (c :: crest) + 1 < N := by
            have : Conv.size (Conv.node i n a (c :: crest)) =
                1 + Conv.sizeChildren (c :: crest) := by simp [Conv.size]
            omega
          have hch := (ih _ hlt).2 (c :: crest) (le_refl _)
          simp only [hier_ok, HNode.children]
          exact hch
    · intro cs hcs
      match cs with
      | [] => rw [hierarchy_children_nil]; rfl
      | c :: crest =>
        rw [hierarchy_children_cons]
        have hszc : Conv.sizeChildren (c :: crest) =
            c.2.size + Conv.sizeChildren crest := by simp [Conv.sizeChildren]
        have hlt1 : 2 * c.2.size < N := by
          have := Conv.size_pos c.2
          omega
        have hlt2 : 2 * Conv.sizeChildren crest + 1 < N := by
          have := Conv.size_pos c.2
          omega
        have h1 := (ih _ hlt1).1 c.2 (le_refl _)
        have h2 := (ih _ hlt2).2 crest (le_refl _)
        simp only [hier_ok_children]
        rw [hier_ok_set_field, h1, h2]
        have hfield : ((build_hierarchy c.2).set_field c.1).field = some c.1 := by
          match c, build_hierarchy c.2 with
          | (f, u), .mk hi hn ha hc hf => rfl
        rw [hfield]
        simp

/-! ### Corollaries of the converter specification -/

theorem convert_node_spec_all (r : Raw) : ConvertNodeSpec r :=
  (convert_master (2 * r.size)).1 r (le_refl _)

theorem convert_node_counter_le (r : Raw) (ctr : Nat) :
    ctr ≤ (convert_node r ctr).2 :=
  (convert_node_spec_all r ctr).1

theorem convert_node_ids (r : Raw) (ctr : Nat) :
    optIds (convert_node r ctr).1 =
      List.range' ctr ((convert_node r ctr).2 - ctr) :=
  (convert_node_spec_all r ctr).2.1

theorem convert_node_shape (nm : String) (fs : List (String × Raw)) (ctr : Nat) :
    ∃ cs, (convert_node (Raw.node nm fs) ctr).1 =
        some (Conv.node ctr nm (get_node_attributes fs) cs) ∧
      Conv.childrenNodeOnly cs = true :=
  (convert_node_spec_all (Raw.node nm fs) ctr).2.2 nm fs rfl

/-! ### Branch computations of the orchestration entry point -/

theorem parse_code_of_ok (parse : String → ParseOutcome) (code : String)
    (nm : String) (fs : List (String × Raw)) (hp : parse code = .ok nm fs) :
    ∃ t, (convert_node (Raw.node nm fs) 0).1 = some t ∧
      parse_code parse code =
        { success := true, tree := some t, error := none,
          lines := (py_split_nl code.toList).length,
          flattened := some (flatten_tree t) } := by
  obtain ⟨cs, hcs, hcsok⟩ := convert_node_shape nm fs 0
  refine ⟨_, hcs, ?_⟩
  simp [parse_code, ASTConverter.parse_and_convert, hp, hcs]

theorem parse_code_of_syntaxError (parse : String → ParseOutcome) (code : String)
    (ln : Nat) (msg : String) (hp : parse code = .syntaxError ln msg) :
    parse_code parse code =
      { success := false, tree := none,
        error := some ("Syntax Error at line " ++ toString ln ++ ": " ++ msg),
        lines := (py_split_nl code.toList).length, flattened := none } := by
  simp [parse_code, ASTConverter.parse_and_convert, hp]

theorem parse_code_of_exc (parse : String → ParseOutcome) (code : String)
    (msg : String) (hp : parse code = .exc msg) :
    parse_code parse code =
      { success := false, tree := none,
        error := some ("Parse Error: " ++ msg),
        lines := (py_split_nl code.toList).length, flattened := none } := by
  simp [parse_code, ASTConverter.parse_and_convert, hp]

/-! ### Concrete inputs used by witnesses -/

/-- Native-parser oracle for witnesses: models `ast.parse` on the source
text `"pass"`, which yields `Module(body=[Pass()], type_ignores=[])`. -/
def oracle_pass : String → ParseOutcome := fun _ =>
  .ok "Module" [("body", .list [.node "Pass" []]), ("type_ignores", .list [])]

/-- Native-parser oracle for witnesses: models `ast.parse` on the
unterminated source text `"def f("`, which raises a `SyntaxError`. -/
def oracle_syntax_error : String → ParseOutcome := fun _ =>
  .syntaxError 1 "unexpected EOF while parsing"

/-- The converted tree for the source text `"pass"`: `Module` (id 0) with
the single child `Pass` (id 1) connected by the field `"body"`. -/
def conv_pass : Conv := Conv.node 0 "Module" [] [("body", Conv.node 1 "Pass" [] [])]

/-! ### Claim theorems -/

/-- Claim C1 is refuted by evaluating the code at the failing input: for
the converted tree of the source `"pass"` — `Module` (id 0) whose single
child `Pass` (id 1) is attached under the field name `"body"` — the one
Link emitted by the flattener carries `field = ""`, not `"body"`, even
though the field value attached to the child entry is present.  The loop
enqueues `child["node"]` (discarding the `{field, node}` wrapper) and then
looks `"field"` up on the node dictionary, which never has that key. -/
theorem claim_C1_link_field_always_empty :
    (flatten_tree conv_pass).links = [{ source := 0, target := 1, field := "" }] ∧
    conv_pass = Conv.node 0 "Module" [] [("body", Conv.node 1 "Pass" [] [])] := by
  constructor
  · simp [flatten_tree, conv_pass, bfs, Conv.link_field_lookup]
  · rfl

/-- Claim C2: for every input accepted by the native parser, the ids in
the converted tree, listed in pre-order, are exactly `0, 1, 2, ...` — so
they are globally unique within the parse, start at 0, and are strictly
increasing in pre-order visitation order (each node's id precedes every id
in its subtree). -/
theorem claim_C2_preorder_ids (parse : String → ParseOutcome) (code : String)
    (h : (parse_code parse code).success = true) :
    ∃ t, (parse_code parse code).tree = some t ∧
      t.preIds = List.range t.preIds.length := by
  cases hp : parse code with
  | ok nm fs =>
    obtain ⟨t, hconv, hPC⟩ := parse_code_of_ok parse code nm fs hp
    refine ⟨t, by rw [hPC], ?_⟩
    have hids := convert_node_ids (Raw.node nm fs) 0
    rw [hconv] at hids
    have : t.preIds = List.range' 0 ((convert_node (Raw.node nm fs) 0).2 - 0) := hids
    rw [this]
    simp [← List.range_eq_range']
  | syntaxError ln msg =>
    rw [parse_code_of_syntaxError parse code ln msg hp] at h
    simp at h
  | exc msg =>
    rw [parse_code_of_exc parse code msg hp] at h
    simp at h

/-- Claim C2 witness at the oracle for `"pass"`. -/
theorem claim_C2_preorder_ids_witness :
    ∃ t, (parse_code oracle_pass "pass").tree = some t ∧
      t.preIds = List.range t.preIds.length :=
  claim_C2_preorder_ids oracle_pass "pass" rfl

/-- Claim C3: the `nodes` and `links` lists produced by the flattener are
the concatenation of its breadth-first rounds: the work queue is seeded
with `(root, parentId = none)`, each round emits the FlatNodes (and Links
toward the parents recorded in the queue) of the current level, and the
next round processes exactly the children of the current level's nodes, in
their original order, tagged with their parent's id (`bfs_rounds`,
`pout`, `queue_children`, `entry_children`).  Hence all nodes at depth d
appear before any node at depth d+1, and likewise for links. -/
theorem claim_C3_level_order (t : Conv) :
    (flatten_tree t).nodes = ((bfs_rounds [(t, none)]).map Prod.fst).flatten ∧
    (flatten_tree t).links = ((bfs_rounds [(t, none)]).map Prod.snd).flatten := by
  have h := bfs_eq_rounds [(t, none)]
  constructor
  · show (bfs [(t, none)]).1 = _
    rw [h]
  · show (bfs [(t, none)]).2 = _
    rw [h]

/-- Claim C4: for every tree produced by the converter, the flattener's
node ids are pairwise distinct, the link targets are exactly the non-root
node ids in order (so every link target is the id of exactly one FlatNode,
every FlatNode but the root is the target of exactly one Link, and targets
are pairwise distinct), and `|nodes| = 1 + |links|`. -/
theorem claim_C4_links_partition (nm : String) (fs : List (String × Raw))
    (t : Conv) (k : Nat) (h : convert_node (Raw.node nm fs) 0 = (some t, k)) :
    ((flatten_tree t).nodes.map FlatNode.id).Nodup ∧
    (flatten_tree t).links.map Link.target =
      ((flatten_tree t).nodes.map FlatNode.id).drop 1 ∧
    ((flatten_tree t).links.map Link.target).Nodup ∧
    (flatten_tree t).nodes.length = 1 + (flatten_tree t).links.length := by
  -- the tree's pre-order ids are `range' 0 k`, hence pairwise distinct
  have hids := convert_node_ids (Raw.node nm fs) 0
  rw [h] at hids
  have hids' : t.preIds = List.range' 0 k := by simpa [optIds] using hids
  have hperm : ((bfs [(t, none)]).1.map FlatNode.id).Perm t.preIds := by
    simpa using bfs_ids_perm [(t, none)]
  have hnodup : ((bfs [(t, none)]).1.map FlatNode.id).Nodup := by
    rw [hids'] at hperm
    exact hperm.nodup_iff.mpr (List.nodup_range' 0 k)
  -- the root is a node dictionary
  obtain ⟨cs, hshape, hcsok⟩ := convert_node_shape nm fs 0
  rw [h] at hshape
  have ht : t = Conv.node 0 nm (get_node_attributes fs) cs := by
    simpa using hshape
  -- unfold one step of the loop at the seed
  have hbfs := bfs_cons_node 0 nm (get_node_attributes fs) cs none []
  rw [List.nil_append] at hbfs
  have htargets : (bfs (cs.map fun c => (c.2, some 0))).2.map Link.target =
      (bfs (cs.map fun c => (c.2, some 0))).1.map FlatNode.id := by
    refine bfs_targets _ ?_
    intro e he
    obtain ⟨c, _, rfl⟩ := List.mem_map.mp he
    rfl
  have hnodes : (flatten_tree t).nodes =
      (⟨0, nm, get_node_attributes fs⟩ : FlatNode) ::
        (bfs (cs.map fun c => (c.2, some 0))).1 := by
    show (bfs [(t, none)]).1 = _
    rw [ht, hbfs]
  have hlinks : (flatten_tree t).links = (bfs (cs.map fun c => (c.2, some 0))).2 := by
    show (bfs [(t, none)]).2 = _
    rw [ht, hbfs]
  have hflat_ids : (flatten_tree t).nodes.map FlatNode.id =
      (bfs [(t, none)]).1.map FlatNode.id := rfl
  refine ⟨by rw [hflat_ids]; exact hnodup, ?_, ?_, ?_⟩
  · rw [hlinks, hnodes, htargets]
    simp
  · rw [hlinks, htargets]
    rw [ht, hbfs] at hnodup
    have hcons : (0 :: (bfs (cs.map fun c => (c.2, some 0))).1.map FlatNode.id).Nodup := by
      simpa using hnodup
    exact (List.nodup_cons.mp hcons).2
  · rw [hlinks, hnodes]
    have hlen := congrArg List.length htargets
    simp only [List.length_map] at hlen
    simp [hlen]
    omega

/-- Claim C4 witness at the converted tree of the source `"pass"`. -/
theorem claim_C4_links_partition_witness :
    ((flatten_tree conv_pass).nodes.map FlatNode.id).Nodup ∧
    (flatten_tree conv_pass).links.map Link.target =
      ((flatten_tree conv_pass).nodes.map FlatNode.id).drop 1 ∧
    ((flatten_tree conv_pass).links.map Link.target).Nodup ∧
    (flatten_tree conv_pass).nodes.length = 1 + (flatten_tree conv_pass).links.length :=
  claim_C4_links_partition "Module"
    [("body", .list [.node "Pass" []]), ("type_ignores", .list [])] conv_pass 2 rfl

/-- Claim C5: in the hierarchy view, the root carries no `field` key, and
recursively (via `hier_ok`) every child node carries `field = some f`
where `f` is the field name attached to its children entry in the parent,
the `children` key is removed entirely whenever a node has zero children
after recursion, and is otherwise the in-order list of recursively built
children. -/
theorem claim_C5_hierarchy_shape (t : Conv) :
    (build_hierarchy t).field = none ∧ hier_ok t (build_hierarchy t) = true := by
  constructor
  · cases t with
    | value v => rw [build_hierarchy_value]; rfl
    | node i n a cs => rw [build_hierarchy_node]; rfl
  · exact (build_hierarchy_ok (2 * t.size)).1 t (le_refl _)

/-- Claim C6: the `lines` field of the result equals the number of
newline-delimited segments of the input (the length of the Python split on
a newline), in every branch — success, syntax error, and unexpected
failure alike — and concretely the empty string yields 1 and
`"a\nb\n"` yields 3. -/
theorem claim_C6_line_count (parse : String → ParseOutcome) (code : String) :
    (parse_code parse code).lines = (py_split_nl code.toList).length ∧
    (py_split_nl ("" : String).toList).length = 1 ∧
    (py_split_nl ("a\nb\n" : String).toList).length = 3 := by
  refine ⟨?_, by decide, by decide⟩
  cases hp : parse code with
  | ok nm fs =>
    obtain ⟨t, hconv, hPC⟩ := parse_code_of_ok parse code nm fs hp
    rw [hPC]
  | syntaxError ln msg => rw [parse_code_of_syntaxError parse code ln msg hp]
  | exc msg => rw [parse_code_of_exc parse code msg hp]

/-- Claim C7: whenever the native parser raises a syntax error, the result
has `success = false`, `tree = none`, `flattened = none`, and an error
string embedding the failing line number and the parser's message. -/
theorem claim_C7_syntax_error_result (parse : String → ParseOutcome)
    (code : String) (ln : Nat) (msg : String)
    (h : parse code = .syntaxError ln msg) :
    (parse_code parse code).success = false ∧
    (parse_code parse code).tree = none ∧
    (parse_code parse code).flattened = none ∧
    (parse_code parse code).error =
      some ("Syntax Error at line " ++ toString ln ++ ": " ++ msg) ∧
    (∃ pre mid, "Syntax Error at line " ++ toString ln ++ ": " ++ msg =
      pre ++ toString ln ++ mid ++ msg) := by
  rw [parse_code_of_syntaxError parse code ln msg h]
  exact ⟨rfl, rfl, rfl, rfl, "Syntax Error at line ", ": ", rfl⟩

/-- Claim C7 witness at the syntax-error oracle for `"def f("`. -/
theorem claim_C7_syntax_error_result_witness :
    (parse_code oracle_syntax_error "def f(").success = false ∧
    (parse_code oracle_syntax_error "def f(").tree = none ∧
    (parse_code oracle_syntax_error "def f(").flattened = none ∧
    (parse_code oracle_syntax_error "def f(").error =
      some ("Syntax Error at line " ++ toString 1 ++ ": " ++
        "unexpected EOF while parsing") ∧
    (∃ pre mid, "Syntax Error at line " ++ toString 1 ++ ": " ++
        "unexpected EOF while parsing" =
      pre ++ toString 1 ++ mid ++ "unexpected EOF while parsing") :=
  claim_C7_syntax_error_result oracle_syntax_error "def f(" 1
    "unexpected EOF while parsing" rfl

/-- Claim C8: the result of `parse_and_convert` does not depend on the
converter's counter state at entry — line 95 resets the counter to 0
before each parse — so two independent `parse_code` calls (each on a fresh
`ASTConverter`) on identical input produce identical results, including
identical id assignments. -/
theorem claim_C8_deterministic_ids (parse : String → ParseOutcome)
    (code : String) (ctr1 ctr2 : Nat) :
    (ASTConverter.parse_and_convert ctr1 parse code).1 =
      (ASTConverter.parse_and_convert ctr2 parse code).1 := rfl

/-- Claim C9: in every result of `parse_code`, `flattened` is non-null
exactly when `success` is true, and `error` is null exactly when `success`
is true. -/
theorem claim_C9_field_consistency (parse : String → ParseOutcome) (code : String) :
    ((parse_code parse code).flattened.isSome ↔
      (parse_code parse code).success = true) ∧
    ((parse_code parse code).error = none ↔
      (parse_code parse code).success = true) := by
  cases hp : parse code with
  | ok nm fs =>
    obtain ⟨t, hconv, hPC⟩ := parse_code_of_ok parse code nm fs hp
    rw [hPC]
    simp
  | syntaxError ln msg =>
    rw [parse_code_of_syntaxError parse code ln msg hp]
    simp
  | exc msg =>
    rw [parse_code_of_exc parse code msg hp]
    simp

/-- Claim C10: every tree returned by a successful parse is built from
node dictionaries only — every children entry is a `{field, node}` pair
whose `node` is itself a full converted node, and the degenerate
`{type: "value"}` leaf shape never occurs anywhere in the tree. -/
theorem claim_C10_no_value_leaves (parse : String → ParseOutcome) (code : String)
    (h : (parse_code parse code).success = true) :
    ∃ t, (parse_code parse code).tree = some t ∧ Conv.nodeOnly t = true := by
  cases hp : parse code with
  | ok nm fs =>
    obtain ⟨t, hconv, hPC⟩ := parse_code_of_ok parse code nm fs hp
    obtain ⟨cs, hshape, hcsok⟩ := convert_node_shape nm fs 0
    refine ⟨t, by rw [hPC], ?_⟩
    have ht : t = Conv.node 0 nm (get_node_attributes fs) cs := by
      rw [hconv] at hshape
      simpa using hshape
    rw [ht]
    show Conv.childrenNodeOnly cs = true
    exact hcsok
  | syntaxError ln msg =>
    rw [parse_code_of_syntaxError parse code ln msg hp] at h
    simp at h
  | exc msg =>
    rw [parse_code_of_exc parse code msg hp] at h
    simp at h

/-- Claim C10 witness at the oracle for `"pass"`. -/
theorem claim_C10_no_value_leaves_witness :
    ∃ t, (parse_code oracle_pass "pass").tree = some t ∧ Conv.nodeOnly t = true :=
  claim_C10_no_value_leaves oracle_pass "pass" rfl
